import Mathlib

/-!
Verification of the move-decision engine in `src/main.py`.

The decision entrypoint `test_func` and the lifecycle hook `reset_func` are
embedded shallowly:

* a `Move` is an opaque identifier (a natural number); the board's
  `generate_legal_moves()` output is the list `legal`;
* `encode_move(move, board)` for the fixed current board is a function
  `Move → Option Int`: `none` models the call raising an exception, `some i`
  the returned integer index;
* the softmax output `policy_probs` is a list of rationals (floats are
  modelled exactly as rationals); its length plays the role of
  `len(policy_probs)` (4672 for the deployed model);
* the Python dict `move_probs` is an insertion-ordered association list
  (faithful when the legal moves are pairwise distinct, which the theorems
  assume via `Nodup` where the dict contents matter);
* `ctx.logProbabilities` calls are collected in the `logs` field of the
  outcome, and raising `ValueError` is `result = none`.
-/

namespace ChessBot

/-- An opaque chess move identifier (moves support equality and hashing). -/
abbrev Move := Nat

/-- The codec `encode_move(·, board)` for the fixed current board: `none`
models an exception, `some i` a returned (possibly out-of-range) index. -/
abbrev Codec := Move → Option Int

/-- The Python dict `move_probs`, as an insertion-ordered association list. -/
abbrev Dist := List (Move × ℚ)

/-- `sum(move_probs.values())` (line 111). -/
def distSum (d : Dist) : ℚ := (d.map Prod.snd).sum

/-- The body of the loop at lines 87-94 for one move: `encode_move` either
raises (`none`) or returns an index that is kept only when
`0 <= move_idx < len(policy_probs)`. -/
def validIndex (enc : Codec) (plen : Nat) (m : Move) : Option (Move × Nat) :=
  match enc m with
  | none => none
  | some idx => if 0 ≤ idx ∧ idx < (plen : Int) then some (m, idx.toNat) else none

/-- Lines 84-94: the parallel lists `valid_moves` / `move_indices`, as one
list of pairs in legal-move enumeration order. -/
def validPairs (enc : Codec) (plen : Nat) (legal : List Move) : List (Move × Nat) :=
  legal.filterMap (validIndex enc plen)

/-- Lines 103-108: `move_probs = {move: prob for move, prob in zip(valid_moves,
policy_probs[move_indices])}`.  Every stored index is in range, so `getD` reads
the actual entry. -/
def rawDist (probs : List ℚ) (vp : List (Move × Nat)) : Dist :=
  vp.map fun p => (p.1, probs.getD p.2 0)

/-- The literal `1e-10` of line 112. -/
def threshold : ℚ := 1 / 10 ^ 10

/-- Lines 110-117: divide by the total when it exceeds `1e-10`, otherwise
replace the weights by `1.0 / len(valid_moves)` (keys unchanged: the dict in
the fallback ranges over `valid_moves`). -/
def normalizeDist (d : Dist) : Dist :=
  if threshold < distSum d then d.map fun q => (q.1, q.2 / distSum d)
  else d.map fun q => (q.1, 1 / (d.length : ℚ))

/-- One step of Python `max(..., key=lambda x: x[1])`: the running best is
replaced only on a strictly larger value, so the first maximum wins. -/
def pickMax (best q : Move × ℚ) : Move × ℚ := if best.2 < q.2 then q else best

/-- `max(move_probs.items(), key=lambda x: x[1])` (line 123): the first
item of maximal value, `none` on an empty list. -/
def maxBySnd (d : Dist) : Option (Move × ℚ) :=
  match d with
  | [] => none
  | p :: ps => some (ps.foldl pickMax p)

/-- `max(move_probs.items(), key=lambda x: x[1])[0]` (line 123). -/
def maxKey (d : Dist) : Option Move := (maxBySnd d).map Prod.fst

/-- Observable outcome of one `test_func` call: the arguments of the
`ctx.logProbabilities` calls it made, in order, and the returned move
(`none` models raising `ValueError`). -/
structure DecideOutcome where
  logs : List Dist
  result : Option Move

/-- Lines 58-130, `test_func` (the `decide` entrypoint), with the external
collaborators as arguments: the enumerated legal moves, the codec for the
current board, and the model's softmaxed policy vector. -/
def test_func (legal : List Move) (enc : Codec) (probs : List ℚ) : DecideOutcome :=
  if legal.isEmpty then { logs := [[]], result := none }
  else
    let vp := validPairs enc probs.length legal
    if vp.isEmpty then
      { logs := [legal.map fun m => (m, 1 / (legal.length : ℚ))]
        result := some (legal.headD 0) }
    else
      let d := normalizeDist (rawDist probs vp)
      { logs := [d], result := maxKey d }

/-- The distribution handed to the Observer (`test_func` logs exactly once). -/
def reported (o : DecideOutcome) : Dist := o.logs.headD []

/-- The raw (pre-normalization) distribution a call builds at lines 103-108. -/
def rawOf (legal : List Move) (enc : Codec) (probs : List ℚ) : Dist :=
  rawDist probs (validPairs enc probs.length legal)

/-- Outcomes of the fallible sub-steps `reset_func` performs, for the fixed
process state at call time: `Except.error` models the call raising. -/
structure ResetCtx where
  clearLog : Except String Unit
  hasCuda : Bool
  emptyCache : Except String Unit
  modelLoaded : Bool
  modelHasEval : Bool
  evalCall : Except String Unit

/-- A `try`/`except Exception` block around one sub-step: a failure is turned
into a printed warning, never re-raised. -/
def tryCatch (step : Except String Unit) (warning : String) : List String :=
  match step with
  | Except.ok _ => []
  | Except.error _ => [warning]

def msgClear : String := "reset_func: failed to clear move probabilities"

def msgCuda : String := "reset_func: torch.cuda.empty_cache() failed or not available"

def msgEval : String := "reset_func: failed to set model to eval()"

/-- Lines 133-156, `reset_func`: each cleanup sub-step is wrapped in its own
`try`/`except`; the result is `ok` with the warnings printed (`error` would
model an exception propagating to the caller, which never happens). -/
def reset_func (ctx : ResetCtx) : Except String (List String) :=
  let w1 := tryCatch ctx.clearLog msgClear
  let w2 := if ctx.hasCuda then tryCatch ctx.emptyCache msgCuda else []
  let w3 := if ctx.modelLoaded && ctx.modelHasEval then tryCatch ctx.evalCall msgEval else []
  Except.ok (w1 ++ w2 ++ w3)

/-- A concrete codec for witnesses: move 0 encodes to index 0, every other
move fails to encode. -/
def sampleCodec : Codec := fun m => if m = 0 then some 0 else none

/-- A concrete codec for witnesses: every lookup raises. -/
def noneCodec : Codec := fun _ => none

/-- `r` is the first entry of maximal value in `d`: everything before it is
strictly smaller, everything after it is no larger.  This is the tie-break
contract of Python `max` over `d` in insertion order. -/
def IsFirstMax (d : Dist) (r : Move × ℚ) : Prop :=
  ∃ l₁ l₂, d = l₁ ++ r :: l₂ ∧ (∀ q ∈ l₁, q.2 < r.2) ∧ (∀ q ∈ l₂, q.2 ≤ r.2)

theorem validIndex_eq_some {enc : Codec} {plen : Nat} {m : Move} {p : Move × Nat} :
    validIndex enc plen m = some p ↔
      ∃ i : Int, enc m = some i ∧ 0 ≤ i ∧ i < (plen : Int) ∧ p = (m, i.toNat) := by
  unfold validIndex
  split
  · rename_i henc
    simp [henc]
  · rename_i i henc
    rw [henc]
    by_cases hr : 0 ≤ i ∧ i < (plen : Int)
    · rw [if_pos hr]
      constructor
      · intro hp
        injection hp with hp1
        exact ⟨i, rfl, hr.1, hr.2, hp1.symm⟩
      · rintro ⟨j, hj, -, -, hp⟩
        injection hj with hj1
        subst hj1
        rw [hp]
    · rw [if_neg hr]
      constructor
      · intro hp
        cases hp
      · rintro ⟨j, hj, h0, hlt, -⟩
        injection hj with hj1
        subst hj1
        exact absurd ⟨h0, hlt⟩ hr

theorem mem_validPairs {enc : Codec} {plen : Nat} {legal : List Move} {p : Move × Nat} :
    p ∈ validPairs enc plen legal ↔
      p.1 ∈ legal ∧ ∃ i : Int, enc p.1 = some i ∧ 0 ≤ i ∧ i < (plen : Int) ∧ p.2 = i.toNat := by
  simp only [validPairs, List.mem_filterMap]
  constructor
  · rintro ⟨a, ha, hfa⟩
    obtain ⟨i, henc, h0, hlt, hp⟩ := validIndex_eq_some.mp hfa
    subst hp
    exact ⟨ha, i, henc, h0, hlt, rfl⟩
  · rintro ⟨hmem, i, henc, h0, hlt, h2⟩
    refine ⟨p.1, hmem, validIndex_eq_some.mpr ⟨i, henc, h0, hlt, ?_⟩⟩
    exact Prod.ext rfl h2

theorem validPairs_keys_sublist (enc : Codec) (plen : Nat) (legal : List Move) :
    List.Sublist ((validPairs enc plen legal).map Prod.fst) legal := by
  simp only [validPairs]
  induction legal with
  | nil => simp
  | cons m tl ih =>
    rw [List.filterMap_cons]
    cases h : validIndex enc plen m with
    | none => exact List.Sublist.cons m ih
    | some p =>
      obtain ⟨i, henc, h0, hlt, hp⟩ := validIndex_eq_some.mp h
      subst hp
      simp only [List.map_cons]
      exact List.Sublist.cons₂ m ih

theorem rawDist_keys (probs : List ℚ) (vp : List (Move × Nat)) :
    (rawDist probs vp).map Prod.fst = vp.map Prod.fst := by
  simp [rawDist, List.map_map, Function.comp]

theorem rawDist_length (probs : List ℚ) (vp : List (Move × Nat)) :
    (rawDist probs vp).length = vp.length := by
  simp [rawDist]

theorem normalizeDist_keys (d : Dist) :
    (normalizeDist d).map Prod.fst = d.map Prod.fst := by
  unfold normalizeDist
  split_ifs <;> simp [List.map_map, Function.comp]

theorem distSum_map_div (d : Dist) (t : ℚ) :
    distSum (d.map fun q => (q.1, q.2 / t)) = distSum d / t := by
  induction d with
  | nil => simp [distSum]
  | cons q tl ih =>
    simp only [distSum, List.map_cons, List.sum_cons] at ih ⊢
    rw [ih, add_div]

theorem distSum_map_mk_const (l : List Move) (c : ℚ) :
    distSum (l.map fun m => (m, c)) = l.length * c := by
  induction l with
  | nil => simp [distSum]
  | cons m tl ih =>
    simp only [distSum, List.map_cons, List.sum_cons, List.length_cons] at ih ⊢
    rw [ih]
    push_cast
    ring

theorem distSum_map_const (d : Dist) (c : ℚ) :
    distSum (d.map fun q => (q.1, c)) = d.length * c := by
  induction d with
  | nil => simp [distSum]
  | cons q tl ih =>
    simp only [distSum, List.map_cons, List.sum_cons, List.length_cons] at ih ⊢
    rw [ih]
    push_cast
    ring

theorem foldl_pickMax_firstMax (ps : List (Move × ℚ)) :
    ∀ b : Move × ℚ, IsFirstMax (b :: ps) (List.foldl pickMax b ps) := by
  induction ps with
  | nil =>
    intro b
    exact ⟨[], [], rfl, by simp, by simp⟩
  | cons q rest ih =>
    intro b
    rw [List.foldl_cons]
    obtain ⟨l₁, l₂, hdec, hlt, hle⟩ := ih (pickMax b q)
    by_cases hq : b.2 < q.2
    · have hpm : pickMax b q = q := if_pos hq
      rw [hpm] at hdec hlt hle ⊢
      cases l₁ with
      | nil =>
        simp only [List.nil_append] at hdec
        injection hdec with h1 h2
        refine ⟨[b], rest, ?_, ?_, ?_⟩
        · rw [← h1]
          rfl
        · intro x hx
          simp only [List.mem_singleton] at hx
          subst hx
          rw [← h1]
          exact hq
        · intro x hx
          exact hle x (h2 ▸ hx)
      | cons y l₁t =>
        simp only [List.cons_append] at hdec
        injection hdec with h1 h2
        subst h1
        have hqlt : q.2 < (List.foldl pickMax q rest).2 := hlt q (by simp)
        refine ⟨b :: q :: l₁t, l₂, ?_, ?_, hle⟩
        · conv_lhs => rw [h2]
          simp
        · intro x hx
          rcases List.mem_cons.mp hx with h | hx1
          · subst h
            exact lt_trans hq hqlt
          rcases List.mem_cons.mp hx1 with h | hx2
          · subst h
            exact hqlt
          · exact hlt x (List.mem_cons_of_mem _ hx2)
    · have hpm : pickMax b q = b := if_neg hq
      rw [hpm] at hdec hlt hle ⊢
      cases l₁ with
      | nil =>
        simp only [List.nil_append] at hdec
        injection hdec with h1 h2
        refine ⟨[], q :: rest, ?_, by simp, ?_⟩
        · rw [← h1]
          rfl
        · intro x hx
          rcases List.mem_cons.mp hx with h | hx1
          · subst h
            rw [← h1]
            exact le_of_not_lt hq
          · exact hle x (h2 ▸ hx1)
      | cons y l₁t =>
        simp only [List.cons_append] at hdec
        injection hdec with h1 h2
        subst h1
        have hblt : b.2 < (List.foldl pickMax b rest).2 := hlt b (by simp)
        refine ⟨b :: q :: l₁t, l₂, ?_, ?_, hle⟩
        · conv_lhs => rw [h2]
          simp
        · intro x hx
          rcases List.mem_cons.mp hx with h | hx1
          · subst h
            exact hblt
          rcases List.mem_cons.mp hx1 with h | hx2
          · subst h
            exact lt_of_le_of_lt (le_of_not_lt hq) hblt
          · exact hlt x (List.mem_cons_of_mem _ hx2)

theorem maxBySnd_firstMax {d : Dist} {r : Move × ℚ} (h : maxBySnd d = some r) :
    IsFirstMax d r := by
  cases d with
  | nil => cases h
  | cons b ps =>
    have hfm := foldl_pickMax_firstMax ps b
    simp only [maxBySnd, Option.some.injEq] at h
    rwa [h] at hfm

theorem maxBySnd_mem {d : Dist} {r : Move × ℚ} (h : maxBySnd d = some r) : r ∈ d := by
  obtain ⟨l₁, l₂, hdec, -, -⟩ := maxBySnd_firstMax h
  rw [hdec]
  simp

theorem maxBySnd_isSome {d : Dist} (h : d ≠ []) : ∃ r, maxBySnd d = some r := by
  cases d with
  | nil => exact absurd rfl h
  | cons b ps => exact ⟨_, rfl⟩

theorem test_func_nil (enc : Codec) (probs : List ℚ) :
    test_func [] enc probs = { logs := [[]], result := none } := rfl

theorem test_func_fallback {legal : List Move} {enc : Codec} {probs : List ℚ}
    (h : legal ≠ []) (hvp : validPairs enc probs.length legal = []) :
    test_func legal enc probs =
      { logs := [legal.map fun m => (m, 1 / (legal.length : ℚ))]
        result := some (legal.headD 0) } := by
  unfold test_func
  rw [if_neg (by simp [List.isEmpty_iff, h]), hvp]
  rfl

theorem test_func_main {legal : List Move} {enc : Codec} {probs : List ℚ}
    (h : legal ≠ []) (hvp : validPairs enc probs.length legal ≠ []) :
    test_func legal enc probs =
      { logs := [normalizeDist (rawOf legal enc probs)]
        result := maxKey (normalizeDist (rawOf legal enc probs)) } := by
  unfold test_func rawOf
  rw [if_neg (by simp [List.isEmpty_iff, h])]
  rw [if_neg (by simp [List.isEmpty_iff, hvp])]

theorem reported_mk (d : Dist) (r : Option Move) :
    reported { logs := [d], result := r } = d := rfl

theorem rawOf_keys (legal : List Move) (enc : Codec) (probs : List ℚ) :
    (rawOf legal enc probs).map Prod.fst = (validPairs enc probs.length legal).map Prod.fst := by
  simp [rawOf, rawDist_keys]

theorem rawOf_length (legal : List Move) (enc : Codec) (probs : List ℚ) :
    (rawOf legal enc probs).length = (validPairs enc probs.length legal).length := by
  simp [rawOf, rawDist]

theorem map_fst_map_mk (l : List Move) (f : Move → ℚ) :
    (l.map fun m => (m, f m)).map Prod.fst = l := by
  induction l with
  | nil => rfl
  | cons a tl ih => simp [ih]

theorem normalized_ne_nil {legal : List Move} {enc : Codec} {probs : List ℚ}
    (hvp : validPairs enc probs.length legal ≠ []) :
    normalizeDist (rawOf legal enc probs) ≠ [] := by
  intro hnil
  have h2 : (validPairs enc probs.length legal).map Prod.fst = [] := by
    rw [← rawOf_keys legal enc probs, ← normalizeDist_keys, hnil]
    rfl
  exact hvp (List.map_eq_nil_iff.mp h2)

/-- C1: for every position with at least one legal move, `test_func` returns a
move that belongs to the legal-move list enumerated at decision time. -/
theorem decide_returns_legal_move (legal : List Move) (enc : Codec) (probs : List ℚ)
    (h : legal ≠ []) :
    ∃ m, (test_func legal enc probs).result = some m ∧ m ∈ legal := by
  by_cases hvp : validPairs enc probs.length legal = []
  · rw [test_func_fallback h hvp]
    cases legal with
    | nil => exact absurd rfl h
    | cons a tl => exact ⟨a, rfl, by simp⟩
  · rw [test_func_main h hvp]
    obtain ⟨r, hr⟩ := maxBySnd_isSome (normalized_ne_nil hvp)
    refine ⟨r.1, by simp [maxKey, hr], ?_⟩
    have hmem : r.1 ∈ (normalizeDist (rawOf legal enc probs)).map Prod.fst :=
      List.mem_map_of_mem Prod.fst (maxBySnd_mem hr)
    rw [normalizeDist_keys, rawOf_keys] at hmem
    exact (validPairs_keys_sublist enc probs.length legal).subset hmem

/-- C1 witness: a position with two legal moves where only the first has a
valid codec index. -/
theorem decide_returns_legal_move_witness :
    ∃ m, (test_func [0, 1] sampleCodec [9 / 10]).result = some m ∧ m ∈ [0, 1] :=
  decide_returns_legal_move [0, 1] sampleCodec [9 / 10] (by decide)

/-- C3: a call with no legal moves logs the empty distribution and raises; in
every branch the Observer (`ctx.logProbabilities`) is called exactly once. -/
theorem observer_called_exactly_once (legal : List Move) (enc : Codec) (probs : List ℚ) :
    (test_func legal enc probs).logs.length = 1 ∧
    (test_func [] enc probs).logs = [[]] ∧
    (test_func [] enc probs).result = none := by
  refine ⟨?_, rfl, rfl⟩
  by_cases h : legal = []
  · subst h
    rfl
  · by_cases hvp : validPairs enc probs.length legal = []
    · rw [test_func_fallback h hvp]
      rfl
    · rw [test_func_main h hvp]
      rfl

/-- C4: with at least one legal move, the reported distribution sums to 1
within the spec's 1e-6 tolerance (in the exact-rational model it sums to 1). -/
theorem reported_sums_to_one (legal : List Move) (enc : Codec) (probs : List ℚ)
    (h : legal ≠ []) (hnd : legal.Nodup) :
    |distSum (reported (test_func legal enc probs)) - 1| ≤ 1 / 10 ^ 6 := by
  have hone : distSum (reported (test_func legal enc probs)) = 1 := by
    by_cases hvp : validPairs enc probs.length legal = []
    · rw [test_func_fallback h hvp, reported_mk, distSum_map_mk_const]
      have hlen : (legal.length : ℚ) ≠ 0 :=
        Nat.cast_ne_zero.mpr (by simpa [List.length_eq_zero] using h)
      field_simp
    · rw [test_func_main h hvp, reported_mk]
      unfold normalizeDist
      by_cases ht : threshold < distSum (rawOf legal enc probs)
      · rw [if_pos ht, distSum_map_div]
        have hpos : (0 : ℚ) < distSum (rawOf legal enc probs) :=
          lt_trans (by norm_num [threshold]) ht
        exact div_self (ne_of_gt hpos)
      · rw [if_neg ht, distSum_map_const]
        have hlen : ((rawOf legal enc probs).length : ℚ) ≠ 0 := by
          rw [rawOf_length]
          exact Nat.cast_ne_zero.mpr (by simpa [List.length_eq_zero] using hvp)
        field_simp
  rw [hone]
  norm_num

/-- C4 witness: the two-move position again. -/
theorem reported_sums_to_one_witness :
    |distSum (reported (test_func [0, 1] sampleCodec [9 / 10])) - 1| ≤ 1 / 10 ^ 6 :=
  reported_sums_to_one [0, 1] sampleCodec [9 / 10] (by decide) (by decide)

/-- C6: when no legal move obtains a valid in-range codec index, the reported
distribution is exactly uniform over all legal moves. -/
theorem all_codec_failures_uniform (legal : List Move) (enc : Codec) (probs : List ℚ)
    (h : legal ≠ []) (hnd : legal.Nodup)
    (hall : ∀ m ∈ legal, ∀ i : Int, enc m = some i → ¬(0 ≤ i ∧ i < (probs.length : Int))) :
    reported (test_func legal enc probs) = legal.map fun m => (m, 1 / (legal.length : ℚ)) := by
  have hvp : validPairs enc probs.length legal = [] := by
    rw [List.eq_nil_iff_forall_not_mem]
    intro p hp
    obtain ⟨hmem, i, henc, h0, hlt, -⟩ := mem_validPairs.mp hp
    exact hall p.1 hmem i henc ⟨h0, hlt⟩
  rw [test_func_fallback h hvp, reported_mk]

/-- C6 witness: with an always-failing codec, two legal moves each get 1/2. -/
theorem all_codec_failures_uniform_witness :
    reported (test_func [0, 1] noneCodec [9 / 10]) = [(0, (1 : ℚ) / 2), (1, (1 : ℚ) / 2)] := by
  rw [all_codec_failures_uniform [0, 1] noneCodec [9 / 10] (by decide) (by decide)
    (by intro m hm i hi; simp [noneCodec] at hi)]
  norm_num

/-- C8: `test_func` is deterministic: identical legal-move enumeration,
identical codec results and identical policy vector give the identical
outcome (same logged distribution, same returned move). -/
theorem decide_deterministic (l1 l2 : List Move) (e1 e2 : Codec) (p1 p2 : List ℚ)
    (hl : l1 = l2) (he : ∀ m, e1 m = e2 m) (hp : p1 = p2) :
    test_func l1 e1 p1 = test_func l2 e2 p2 ∧
    reported (test_func l1 e1 p1) = reported (test_func l2 e2 p2) := by
  have hee : e1 = e2 := funext he
  subst hl
  subst hp
  subst hee
  exact ⟨rfl, rfl⟩

/-- C8 witness: the two-move position compared with itself. -/
theorem decide_deterministic_witness :
    test_func [0, 1] sampleCodec [9 / 10] = test_func [0, 1] sampleCodec [9 / 10] ∧
    reported (test_func [0, 1] sampleCodec [9 / 10]) =
      reported (test_func [0, 1] sampleCodec [9 / 10]) :=
  decide_deterministic [0, 1] [0, 1] sampleCodec sampleCodec [9 / 10] [9 / 10]
    rfl (fun _ => rfl) rfl

/-- C2 counterexample: move 1 is legal and its codec lookup fails, yet the
reported distribution is `[(0, 1)]`: move 1 gets no epsilon weight and is not
a key at all, so the distribution does not contain exactly the legal moves. -/
theorem epsilon_weight_counterexample :
    (1 : Move) ∈ [0, 1] ∧ sampleCodec 1 = none ∧
    reported (test_func [0, 1] sampleCodec [9 / 10]) = [(0, 1)] ∧
    (1 : Move) ∉ (reported (test_func [0, 1] sampleCodec [9 / 10])).map Prod.fst := by
  have hrep : reported (test_func [0, 1] sampleCodec [9 / 10]) = [(0, 1)] := by
    norm_num [test_func, validPairs, validIndex, sampleCodec, rawDist, normalizeDist,
      distSum, threshold, maxKey, maxBySnd, pickMax, reported, List.filterMap_cons,
      List.getD]
  refine ⟨by decide, rfl, hrep, ?_⟩
  rw [hrep]
  simp

/-- C2 (amended): a legal move whose codec lookup fails or whose index is out
of range is dropped (no epsilon weight); the reported distribution's keys are
exactly the successfully encoded moves when at least one exists, and all legal
moves only when none was encoded. -/
theorem distribution_keys_amended (legal : List Move) (enc : Codec) (probs : List ℚ)
    (h : legal ≠ []) (hnd : legal.Nodup) :
    (reported (test_func legal enc probs)).map Prod.fst =
      if validPairs enc probs.length legal = [] then legal
      else (validPairs enc probs.length legal).map Prod.fst := by
  by_cases hvp : validPairs enc probs.length legal = []
  · rw [if_pos hvp, test_func_fallback h hvp, reported_mk]
    exact map_fst_map_mk legal _
  · rw [if_neg hvp, test_func_main h hvp, reported_mk, normalizeDist_keys, rawOf_keys]

/-- C2 witness for the amended statement: the two-move position. -/
theorem distribution_keys_amended_witness :
    (reported (test_func [0, 1] sampleCodec [9 / 10])).map Prod.fst =
      if validPairs sampleCodec ([9 / 10] : List ℚ).length [0, 1] = [] then [0, 1]
      else (validPairs sampleCodec ([9 / 10] : List ℚ).length [0, 1]).map Prod.fst :=
  distribution_keys_amended [0, 1] sampleCodec [9 / 10] (by decide) (by decide)

/-- C5 counterexample: with legal moves 0 and 1, only move 0 encodable, and
its policy weight `1e-12`, the weight sum is below the `1e-10` threshold, but
the fallback distribution is `[(0, 1)]` — uniform over the single valid move,
not probability 1/2 over each of the two legal moves. -/
theorem degenerate_uniform_counterexample :
    distSum (rawOf [0, 1] sampleCodec [1 / 10 ^ 12]) ≤ threshold ∧
    (1 : Move) ∈ [0, 1] ∧
    reported (test_func [0, 1] sampleCodec [1 / 10 ^ 12]) = [(0, 1)] ∧
    reported (test_func [0, 1] sampleCodec [1 / 10 ^ 12]) ≠
      [(0, (1 : ℚ) / 2), (1, (1 : ℚ) / 2)] := by
  have hrep : reported (test_func [0, 1] sampleCodec [1 / 10 ^ 12]) = [(0, 1)] := by
    norm_num [test_func, validPairs, validIndex, sampleCodec, rawDist, normalizeDist,
      distSum, threshold, maxKey, maxBySnd, pickMax, reported, List.filterMap_cons,
      List.getD]
  refine ⟨?_, by decide, hrep, ?_⟩
  · norm_num [rawOf, validPairs, validIndex, sampleCodec, rawDist, distSum, threshold,
      List.filterMap_cons, List.getD]
  · rw [hrep]
    simp

/-- C5 (amended): the normalizer divides every weight by the sum exactly when
the sum exceeds 1e-10; at or below the threshold it assigns uniform
probability `1/N` where `N` is the number of moves with valid in-range codec
indices — a possibly proper subset of the legal moves, not all of them. -/
theorem normalizer_threshold_amended (legal : List Move) (enc : Codec) (probs : List ℚ)
    (h : legal ≠ []) (hvp : validPairs enc probs.length legal ≠ []) :
    (threshold < distSum (rawOf legal enc probs) →
      reported (test_func legal enc probs) =
        (rawOf legal enc probs).map fun q => (q.1, q.2 / distSum (rawOf legal enc probs))) ∧
    (¬ threshold < distSum (rawOf legal enc probs) →
      reported (test_func legal enc probs) =
        (rawOf legal enc probs).map fun q => (q.1, 1 / ((rawOf legal enc probs).length : ℚ))) := by
  rw [test_func_main h hvp, reported_mk]
  unfold normalizeDist
  constructor
  · intro ht
    rw [if_pos ht]
  · intro ht
    rw [if_neg ht]

/-- C5 witness for the amended statement: the two-move position with one
encodable move, where the sum 9/10 is above the threshold. -/
theorem normalizer_threshold_amended_witness :
    (threshold < distSum (rawOf [0, 1] sampleCodec [9 / 10]) →
      reported (test_func [0, 1] sampleCodec [9 / 10]) =
        (rawOf [0, 1] sampleCodec [9 / 10]).map
          fun q => (q.1, q.2 / distSum (rawOf [0, 1] sampleCodec [9 / 10]))) ∧
    (¬ threshold < distSum (rawOf [0, 1] sampleCodec [9 / 10]) →
      reported (test_func [0, 1] sampleCodec [9 / 10]) =
        (rawOf [0, 1] sampleCodec [9 / 10]).map
          fun q => (q.1, 1 / ((rawOf [0, 1] sampleCodec [9 / 10]).length : ℚ))) :=
  normalizer_threshold_amended [0, 1] sampleCodec [9 / 10] (by decide)
    (by norm_num [validPairs, validIndex, sampleCodec, List.filterMap_cons])

/-- C7: the returned move is the key of the first entry of maximal probability
in the reported distribution, whose key order is a subsequence of the
legal-move enumeration order (so ties go to the earliest enumerated move). -/
theorem selects_first_max (legal : List Move) (enc : Codec) (probs : List ℚ)
    (h : legal ≠ []) (hnd : legal.Nodup) :
    ∃ d r, (test_func legal enc probs).logs = [d] ∧
      (test_func legal enc probs).result = some r.1 ∧
      List.Sublist (d.map Prod.fst) legal ∧
      IsFirstMax d r := by
  by_cases hvp : validPairs enc probs.length legal = []
  · rw [test_func_fallback h hvp]
    cases legal with
    | nil => exact absurd rfl h
    | cons a tl =>
      refine ⟨(a :: tl).map fun m => (m, 1 / (((a :: tl).length : Nat) : ℚ)),
        (a, 1 / (((a :: tl).length : Nat) : ℚ)), rfl, rfl, ?_, ?_⟩
      · rw [map_fst_map_mk]
      · refine ⟨[], tl.map fun m => (m, 1 / (((a :: tl).length : Nat) : ℚ)), rfl, by simp, ?_⟩
        intro q hq
        obtain ⟨m, hm, hqe⟩ := List.mem_map.mp hq
        subst hqe
        simp
  · rw [test_func_main h hvp]
    obtain ⟨r, hr⟩ := maxBySnd_isSome (normalized_ne_nil hvp)
    refine ⟨normalizeDist (rawOf legal enc probs), r, rfl, by simp [maxKey, hr], ?_,
      maxBySnd_firstMax hr⟩
    rw [normalizeDist_keys, rawOf_keys]
    exact validPairs_keys_sublist enc probs.length legal

/-- C7 witness: the two-move position. -/
theorem selects_first_max_witness :
    ∃ d r, (test_func [0, 1] sampleCodec [9 / 10]).logs = [d] ∧
      (test_func [0, 1] sampleCodec [9 / 10]).result = some r.1 ∧
      List.Sublist (d.map Prod.fst) [0, 1] ∧
      IsFirstMax d r :=
  selects_first_max [0, 1] sampleCodec [9 / 10] (by decide) (by decide)

/-- C9: `reset_func` never propagates an exception: whatever the outcomes of
its cleanup sub-steps, it returns `ok`, and each failed sub-step is reported
in the printed warnings. -/
theorem reset_never_raises (ctx : ResetCtx) :
    ∃ ws, reset_func ctx = Except.ok ws ∧
      (∀ e, ctx.clearLog = Except.error e → msgClear ∈ ws) ∧
      (∀ e, ctx.hasCuda = true → ctx.emptyCache = Except.error e → msgCuda ∈ ws) ∧
      (∀ e, (ctx.modelLoaded && ctx.modelHasEval) = true →
        ctx.evalCall = Except.error e → msgEval ∈ ws) := by
  refine ⟨_, rfl, ?_, ?_, ?_⟩
  · intro e he
    simp [tryCatch, he]
  · intro e hc he
    simp [tryCatch, hc, he]
  · intro e hm he
    simp [tryCatch, hm, he]

/-- C10: when some legal move has a valid in-range codec index, any legal move
whose lookup failed or was out of range is absent from the reported
distribution and is never the returned move. -/
theorem invalid_moves_dropped (legal : List Move) (enc : Codec) (probs : List ℚ)
    (hnd : legal.Nodup)
    (hsome : ∃ m0 ∈ legal, ∃ i : Int, enc m0 = some i ∧ 0 ≤ i ∧ i < (probs.length : Int))
    (m : Move) (hm : m ∈ legal)
    (hbad : ∀ i : Int, enc m = some i → ¬(0 ≤ i ∧ i < (probs.length : Int))) :
    m ∉ (reported (test_func legal enc probs)).map Prod.fst ∧
    (test_func legal enc probs).result ≠ some m := by
  obtain ⟨m0, hm0, i0, henc0, h00, h0l⟩ := hsome
  have h : legal ≠ [] := by
    intro hnil
    rw [hnil] at hm0
    cases hm0
  have hvp : validPairs enc probs.length legal ≠ [] := by
    intro hvpnil
    have hin : (m0, i0.toNat) ∈ validPairs enc probs.length legal :=
      mem_validPairs.mpr ⟨hm0, i0, henc0, h00, h0l, rfl⟩
    rw [hvpnil] at hin
    cases hin
  have hkey : ∀ p ∈ validPairs enc probs.length legal, p.1 ≠ m := by
    intro p hp hpm
    obtain ⟨-, i, henc, h0, hl, -⟩ := mem_validPairs.mp hp
    rw [hpm] at henc
    exact hbad i henc ⟨h0, hl⟩
  rw [test_func_main h hvp, reported_mk]
  have hmem : m ∉ (normalizeDist (rawOf legal enc probs)).map Prod.fst := by
    rw [normalizeDist_keys, rawOf_keys]
    intro hmm
    obtain ⟨p, hp, hpe⟩ := List.mem_map.mp hmm
    exact hkey p hp hpe
  refine ⟨hmem, ?_⟩
  intro hres
  obtain ⟨r, hr⟩ := maxBySnd_isSome (normalized_ne_nil hvp)
  have hmk : maxKey (normalizeDist (rawOf legal enc probs)) = some r.1 := by
    simp [maxKey, hr]
  rw [hmk] at hres
  injection hres with hrm
  exact hmem (hrm ▸ List.mem_map_of_mem Prod.fst (maxBySnd_mem hr))

/-- C10 witness: in the two-move position, the failing move 1 is neither a key
of the distribution nor the returned move. -/
theorem invalid_moves_dropped_witness :
    (1 : Move) ∉ (reported (test_func [0, 1] sampleCodec [9 / 10])).map Prod.fst ∧
    (test_func [0, 1] sampleCodec [9 / 10]).result ≠ some 1 :=
  invalid_moves_dropped [0, 1] sampleCodec [9 / 10] (by decide)
    ⟨0, by decide, 0, rfl, by decide, by decide⟩ 1 (by decide)
    (by intro i hi; simp [sampleCodec] at hi)

end ChessBot
